import Mathlib

/-!
# Verification of the Substrate MMR storage layer

Shallow embedding of `frame/merkle-mountain-range/src/mmr/storage.rs`:
the two `MMRStore` implementations (`RuntimeStorage` / `OffchainStorage`),
the `append` walk with its peak bookkeeping, the `peaks_to_prune_and_store`
diff, and the fork-key derivation used by the offchain read path.

External primitives that are not part of the excerpted source
(`mmr_lib::helper::get_peaks`, `NodesUtils::size`,
`NodesUtils::leaf_index_that_added_node`) are modelled from the
specification's contracts; each such definition is marked in its doc
comment.  Machine integers are modelled as `Nat` (the progression counter
is abstract in the spec); `saturating_sub` on naturals is exactly
truncated subtraction.

All definitions are written with structural (fuel-based) recursion so that
they compute inside the kernel.
-/

namespace MmrStorage

/-- Fuel-driven population count helper: number of set bits of `n`,
computed by repeated division by two.  Fuel `n` always suffices since the
argument strictly decreases. -/
def countOnesAux : Nat → Nat → Nat
  | 0, _ => 0
  | _ + 1, 0 => 0
  | fuel + 1, n + 1 => (n + 1) % 2 + countOnesAux fuel ((n + 1) / 2)

/-- Number of ones in the binary representation of `n`. -/
def countOnes (n : Nat) : Nat := countOnesAux n n

/-- Modelled from the spec: the pure size function deriving the forest's
total node count from the leaf count (`NodesUtils::size`, outside the
excerpt).  An MMR with `leaves` leaves has `2 * leaves - popcount leaves`
nodes: each mountain with `2^h` leaves has `2^(h+1) - 1` nodes. -/
def mmrSize (leaves : Nat) : Nat := 2 * leaves - countOnes leaves

/-- Fuel-driven loop growing a perfect-tree size `s` (of shape `2^k - 1`)
by `s ↦ 2*s + 1` while the result still fits in `n`. -/
def growPerfect : Nat → Nat → Nat → Nat
  | 0, s, _ => s
  | fuel + 1, s, n => if 2 * s + 1 ≤ n then growPerfect fuel (2 * s + 1) n else s

/-- Largest size of a perfect binary tree (a number of shape `2^k - 1`,
`k ≥ 1`) that fits into `n` nodes; meaningful for `n ≥ 1`. -/
def perfectSizeBelow (n : Nat) : Nat := growPerfect n 1 n

/-- Fuel-driven peak computation: greedily split off the largest perfect
mountain, recurse on the remainder, shifting positions past it. -/
def peaksAux : Nat → Nat → List Nat
  | _, 0 => []
  | 0, _ + 1 => []
  | fuel + 1, n + 1 =>
    let s := perfectSizeBelow (n + 1)
    (s - 1) :: (peaksAux fuel (n + 1 - s)).map (· + s)

/-- Modelled from the spec: `PeakSet` — the ascending list of positions of
the current peaks of an MMR with `n` nodes (`mmr_lib::helper::get_peaks`,
an external primitive per the spec).  The subtrees rooted at the returned
positions partition `[0, n)` into perfect binary trees, largest first. -/
def peaks (n : Nat) : List Nat := peaksAux n n

/-- Faithful model of the
`while peaks_before.peek() == peaks_after.peek()` loop of
`peaks_to_prune_and_store`: the loop advances while the two peeked heads
are equal, which includes the case where both iterators are exhausted
(`None == None`), so on two equal lists it never exits; `none` models
that non-termination. -/
def dropCommonLoop : List Nat → List Nat → Option (List Nat × List Nat)
  | a :: as, b :: bs => if a = b then dropCommonLoop as bs else some (a :: as, b :: bs)
  | [], [] => none
  | as, bs => some (as, bs)

/-- The returning behaviour of the lock-step prefix-removal loop: the pair
it yields whenever it terminates, i.e. whenever the two lists differ
(`dropCommonLoop_eq_some`).  `append` only reaches the loop with
`old_size < new_size`, where the peak lists always differ, so this total
function is the loop's behaviour at every call site of the source. -/
def dropCommon : List Nat → List Nat → List Nat × List Nat
  | a :: as, b :: bs => if a = b then dropCommon as bs else (a :: as, b :: bs)
  | as, bs => (as, bs)

/-- Embedding of `peaks_to_prune_and_store(old_size, new_size)`: compute
the peak lists before and after the insertion (the empty list for
`old_size == 0`) and drop their common prefix; what remains is the pair
(old peaks to remove from storage, new peaks to persist). -/
def peaks_to_prune_and_store (oldSize newSize : Nat) : List Nat × List Nat :=
  let peaksBefore := if oldSize = 0 then [] else peaks oldSize
  let peaksAfter := peaks newSize
  dropCommon peaksBefore peaksAfter

/-- Embedding of `peaks_to_prune_and_store` with the loop's partiality
kept: `none` models the source's non-terminating
`while peek() == peek()` loop, reached exactly when the two peak lists
coincide (in particular when `old_size = new_size`). -/
def peaks_to_prune_and_store_loop (oldSize newSize : Nat) :
    Option (List Nat × List Nat) :=
  dropCommonLoop (if oldSize = 0 then [] else peaks oldSize) (peaks newSize)

/-- Embedding of `Node` (`mmr/mod.rs`): a full leaf payload (`Node::Data`)
or an already-hashed inner/leaf node (`Node::Hash`).  Payloads and digests
are modelled as naturals. -/
inductive Node where
  | Data (payload : Nat)
  | Hash (digest : Nat)
deriving DecidableEq

/-- Model of `elem.hash()`: the canonical digest of a node (abstract in
the source behind the `FullLeaf`/hashing traits; modelled as the carried
number). -/
def Node.hash : Node → Nat
  | .Data payload => payload
  | .Hash digest => digest

/-- Model of SCALE encoding `elem.using_encoded(..)`: a tagged flat list. -/
def encodeNode : Node → List Nat
  | .Data payload => [0, payload]
  | .Hash digest => [1, digest]

/-- Model of `codec::Decode::decode` for `Node`: inverse of `encodeNode`,
`none` on any non-well-formed byte string. -/
def decodeNode : List Nat → Option Node
  | [0, payload] => some (Node.Data payload)
  | [1, digest] => some (Node.Hash digest)
  | _ => none

/-- Model of `Pallet::offchain_key(parent_hash, pos)`: an injective pairing
of the fork identifier and the node position. -/
def offchainKey (h : Nat) (pos : Nat) : Nat × Nat := (h, pos)

/-- Durable on-chain storage map `Nodes<T, I>`: node position → digest. -/
abbrev NodesMap := Finmap fun _ : Nat => Nat

/-- Offchain (indexing) database: offchain key → encoded node content. -/
abbrev OffchainDb := Finmap fun _ : Nat × Nat => List Nat

/-- The storage touched by the MMR pallet: the durable `Nodes` map, the
`NumberOfLeaves` counter, and the external (offchain indexing) content
store. -/
structure MmrState where
  nodes : NodesMap
  numLeaves : Nat
  external : OffchainDb
deriving DecidableEq

/-- Host environment provided by `frame_system`: current block number,
parent hash of the current block, the block-number → block-hash oracle,
and the largest value of the host's bounded `BlockNumber` type
(`BlockNumber::MAX`, at which `saturating_add` clamps). -/
structure Env where
  blockNumber : Nat
  parentHash : Nat
  blockHash : Nat → Nat
  blockMax : Nat

/-- Error type of `mmr_lib::Error` restricted to the variant the embedded
code produces. -/
inductive MmrError where
  | inconsistentStore
deriving DecidableEq

/-- Result of a storage operation: normal return, recoverable error, or a
Rust panic (process abort). -/
inductive Outcome (α : Type) where
  | ok (value : α)
  | error (e : MmrError)
  | fatal (msg : String)
deriving DecidableEq

/-- Loop state of the `for elem in elems` walk inside
`Storage<RuntimeStorage>::append`: the two storages, the still-unconsumed
`peaks_to_store` cursor (a `Peekable` in the source), and the running
`leaf_index` / `node_index` counters. -/
structure WalkAcc where
  nodes : NodesMap
  external : OffchainDb
  toStore : List Nat
  leafIndex : Nat
  nodeIndex : Nat

/-- The `if let Node::Data(..) = elem { leaf_index += 1 }` step: the leaf
counter advances only on full-leaf elements. -/
def bumpLeaf (elem : Node) (li : Nat) : Nat :=
  match elem with
  | .Data _ => li + 1
  | .Hash _ => li

/-- One iteration of the append walk: write the full encoded content to
the offchain store under the current parent hash, insert the digest into
`Nodes` iff the position matches the next `peaks_to_store` entry
(`next_if_eq`), and bump the leaf / node counters. -/
def walkStep (ph : Nat) (acc : WalkAcc) (elem : Node) : WalkAcc :=
  let external := acc.external.insert (offchainKey ph acc.nodeIndex) (encodeNode elem)
  let inner :=
    match acc.toStore with
    | p :: rest =>
      if p = acc.nodeIndex then (acc.nodes.insert acc.nodeIndex elem.hash, rest)
      else (acc.nodes, p :: rest)
    | [] => (acc.nodes, ([] : List Nat))
  { nodes := inner.1, external := external, toStore := inner.2,
    leafIndex := bumpLeaf elem acc.leafIndex, nodeIndex := acc.nodeIndex + 1 }

/-- The full `for elem in elems` walk. -/
def walk (ph : Nat) (acc : WalkAcc) : List Node → WalkAcc
  | [] => acc
  | e :: es => walk ph (walkStep ph acc e) es

/-- Remove every key in `ps` from the map (the
`for pos in peaks_to_prune { Nodes::remove(pos) }` loop). -/
def eraseKeys (ps : List Nat) (m : NodesMap) : NodesMap :=
  ps.foldl (fun acc p => acc.erase p) m

/-- Insert every key in `ps` into the map (value immaterial); used to state
the durable-map effect of the store half of the peak diff. -/
def insertKeys (ps : List Nat) (m : NodesMap) : NodesMap :=
  ps.foldl (fun acc p => acc.insert p 0) m

/-- The successful branch of `Storage<RuntimeStorage>::append` after the
emptiness and contiguity checks: run the walk with the `peaks_to_store`
cursor, commit the final leaf counter, and prune the subsumed peaks. -/
def appendCore (env : Env) (st : MmrState) (elems : List Node) : MmrState :=
  let size := mmrSize st.numLeaves
  let newSize := size + elems.length
  let ps := peaks_to_prune_and_store size newSize
  let acc := walk env.parentHash
    { nodes := st.nodes, external := st.external, toStore := ps.2,
      leafIndex := st.numLeaves, nodeIndex := size } elems
  { nodes := eraseKeys ps.1 acc.nodes, numLeaves := acc.leafIndex,
    external := acc.external }

/-- Embedding of `Storage<RuntimeStorage>::append`: no-op on an empty
batch, `InconsistentStore` when the requested position is not the current
size derived from `NumberOfLeaves`, otherwise the append walk. -/
def append (env : Env) (st : MmrState) (pos : Nat) (elems : List Node) :
    Outcome MmrState :=
  if elems.isEmpty then .ok st
  else if pos ≠ mmrSize st.numLeaves then .error .inconsistentStore
  else .ok (appendCore env st elems)

/-- The state after an `append` call: the returned state on success, the
untouched previous state on a recoverable error (the source performs no
storage write before returning the error). -/
def appendRun (env : Env) (st : MmrState) (pos : Nat) (elems : List Node) :
    MmrState :=
  match append env st pos elems with
  | .ok st' => st'
  | _ => st

/-- `true` iff the outcome is a normal return. -/
def Outcome.isOk {α : Type} : Outcome α → Bool
  | .ok _ => true
  | _ => false

/-- Embedding of `Storage<OffchainStorage>::append`: unconditionally a
panic (`panic!("MMR must not be altered in the off-chain context.")`). -/
def offchainAppend (_st : MmrState) (_pos : Nat) (_elems : List Node) :
    Outcome MmrState :=
  .fatal "MMR must not be altered in the off-chain context."

/-- Fuel-driven search for the first leaf count `i` (counting up from the
given start) whose MMR size reaches `target`. -/
def leafSearch : Nat → Nat → Nat → Nat
  | 0, i, _ => i
  | fuel + 1, i, target => if target ≤ mmrSize i then i else leafSearch fuel (i + 1) target

/-- Modelled from the spec: `NodesUtils::leaf_index_that_added_node(pos)`
(outside the excerpt) — the index of the leaf whose insertion first made
the forest contain position `pos`, i.e. one less than the smallest leaf
count whose MMR size exceeds `pos`.  A pure function of `pos` alone. -/
def leaf_index_that_added_node (pos : Nat) : Nat :=
  leafSearch (pos + 1) 0 (pos + 1) - 1

/-- `u32::MAX`. -/
def u32Max : Nat := 4294967295

/-- Models `u32::try_from(x).expect("leaf-idx < block-num; qed")`: `none`
models the panic when `x` exceeds `u32::MAX`. -/
def u32TryFrom (x : Nat) : Option Nat :=
  if x ≤ u32Max then some x else none

/-- The `parent_block_num` computation inside
`parent_hash_of_ancestor_that_added_node`: both the stored leaf count and
the position's leaf index go through a panicking `u32::try_from(..).expect`
conversion (modelled as `none`), then
`block_number().saturating_sub(leaves_count).saturating_add(ancestor_leaf_idx)`
on the bounded `BlockNumber` type: truncated subtraction, and addition
clamped at `BlockNumber::MAX` (`env.blockMax`). -/
def parent_block_num (env : Env) (leavesCount : Nat) (pos : Nat) : Option Nat :=
  match u32TryFrom leavesCount, u32TryFrom (leaf_index_that_added_node pos) with
  | some lc, some li => some (min (env.blockNumber - lc + li) env.blockMax)
  | _, _ => none

/-- Embedding of `Storage::parent_hash_of_ancestor_that_added_node`: the
hash of the block preceding the block that appended the leaf which created
node `pos` (`leavesCount` is the stored `NumberOfLeaves`); `none` models
the panic of the `u32::try_from(..).expect` conversions. -/
def parent_hash_of_ancestor_that_added_node (env : Env) (leavesCount : Nat)
    (pos : Nat) : Option Nat :=
  (parent_block_num env leavesCount pos).map env.blockHash

/-- Embedding of `Storage<OffchainStorage>::get_elem`: reconstruct the fork
key for `pos` (aborting with the expect's panic message when the `u32`
conversions overflow), read the offchain DB, and decode; a missing record
or a decode failure both yield `none`. -/
def get_elem (env : Env) (st : MmrState) (pos : Nat) : Outcome (Option Node) :=
  match parent_hash_of_ancestor_that_added_node env st.numLeaves pos with
  | none => .fatal "leaf-idx < block-num; qed"
  | some phash =>
    .ok ((st.external.lookup (offchainKey phash pos)).bind decodeNode)

/-- Embedding of `Storage<RuntimeStorage>::get_elem`: read the durable
`Nodes` map and wrap the digest in `Node::Hash`. -/
def runtime_get_elem (st : MmrState) (pos : Nat) : Outcome (Option Node) :=
  .ok ((st.nodes.lookup pos).map Node.Hash)

/-- Number of `Leaf` (full data) elements in a batch. -/
def leafCountOf (elems : List Node) : Nat :=
  elems.countP fun e =>
    match e with
    | .Data _ => true
    | .Hash _ => false

/-- A batch is well-formed at leaf count `leaves` when it consists of some
new leaves together with exactly the inner nodes their insertion
synthesizes, so that the node count derived from the updated leaf counter
matches the old size plus the batch length (spec §4.5: the caller provides
the expanded sequence). -/
def ValidBatch (leaves : Nat) (elems : List Node) : Prop :=
  mmrSize (leaves + leafCountOf elems) = mmrSize leaves + elems.length

/-- Every batch of the sequence is well-formed at the leaf count reached
by its predecessors. -/
def ValidBatches : Nat → List (List Node) → Prop
  | _, [] => True
  | leaves, b :: bs => ValidBatch leaves b ∧ ValidBatches (leaves + leafCountOf b) bs

/-- The empty MMR state (size 0, nothing stored). -/
def initState : MmrState := ⟨∅, 0, ∅⟩

/-- Run a sequence of append calls, each at the current total node count
(the position a well-behaved caller passes); `none` if any call fails. -/
def runAppends (env : Env) (st : MmrState) : List (List Node) → Option MmrState
  | [] => some st
  | b :: bs =>
    match append env st (mmrSize st.numLeaves) b with
    | .ok st' => runAppends env st' bs
    | _ => none

/-! ### Structure of `perfectSizeBelow` and `peaks` -/

theorem growPerfect_ge (fuel s n : Nat) : s ≤ growPerfect fuel s n := by
  induction fuel generalizing s with
  | zero => exact Nat.le_refl s
  | succ fuel ih =>
    simp only [growPerfect]
    split
    · exact Nat.le_trans (by omega) (ih (2 * s + 1))
    · exact Nat.le_refl s

theorem growPerfect_le (fuel s n : Nat) (h : s ≤ n) : growPerfect fuel s n ≤ n := by
  induction fuel generalizing s with
  | zero => exact h
  | succ fuel ih =>
    simp only [growPerfect]
    split
    · exact ih _ (by omega)
    · exact h

theorem growPerfect_shape (fuel s n : Nat) (h : ∃ k, s = 2 ^ (k + 1) - 1) :
    ∃ k, growPerfect fuel s n = 2 ^ (k + 1) - 1 := by
  induction fuel generalizing s with
  | zero => exact h
  | succ fuel ih =>
    simp only [growPerfect]
    split
    · apply ih
      obtain ⟨k, rfl⟩ := h
      refine ⟨k + 1, ?_⟩
      have hpos : 0 < 2 ^ (k + 1) := Nat.pos_pow_of_pos _ (by omega)
      have hpow : (2 : Nat) ^ (k + 1 + 1) = 2 * 2 ^ (k + 1) := by
        rw [Nat.pow_succ]; ring
      omega
    · exact h

theorem growPerfect_max (fuel s n : Nat) (h : n + 1 < (s + 1) * 2 ^ fuel) :
    n < 2 * growPerfect fuel s n + 1 := by
  induction fuel generalizing s with
  | zero => simp only [growPerfect]; simp only [Nat.pow_zero, Nat.mul_one] at h; omega
  | succ fuel ih =>
    simp only [growPerfect]
    split
    · apply ih
      have : (2 * s + 1 + 1) * 2 ^ fuel = (s + 1) * 2 ^ (fuel + 1) := by
        rw [Nat.pow_succ]; ring
      omega
    · omega

theorem perfectSizeBelow_pos (n : Nat) : 1 ≤ perfectSizeBelow n :=
  growPerfect_ge n 1 n

theorem perfectSizeBelow_le {n : Nat} (h : 1 ≤ n) : perfectSizeBelow n ≤ n :=
  growPerfect_le n 1 n h

theorem perfectSizeBelow_shape (n : Nat) : ∃ k, perfectSizeBelow n = 2 ^ (k + 1) - 1 :=
  growPerfect_shape n 1 n ⟨0, by norm_num⟩

theorem perfectSizeBelow_max (n : Nat) : n < 2 * perfectSizeBelow n + 1 := by
  apply growPerfect_max
  have h1 : n < 2 ^ n := Nat.lt_two_pow n
  have : (1 + 1) * 2 ^ n = 2 ^ n + 2 ^ n := by ring
  omega

theorem perfectSizeBelow_mono {m n : Nat} (h1 : 1 ≤ m) (hmn : m ≤ n) :
    perfectSizeBelow m ≤ perfectSizeBelow n := by
  by_contra hcon
  push_neg at hcon
  obtain ⟨a, ha⟩ := perfectSizeBelow_shape m
  obtain ⟨b, hb⟩ := perfectSizeBelow_shape n
  have hm := perfectSizeBelow_le h1
  have hn := perfectSizeBelow_max n
  have hpa : 0 < 2 ^ (a + 1) := Nat.pos_pow_of_pos _ (by omega)
  have hpb : 0 < 2 ^ (b + 1) := Nat.pos_pow_of_pos _ (by omega)
  have hba : b < a := by
    by_contra hab
    push_neg at hab
    have := Nat.pow_le_pow_right (show 0 < 2 by omega) (Nat.succ_le_succ hab)
    omega
  have hstep : 2 ^ (b + 1 + 1) ≤ 2 ^ (a + 1) :=
    Nat.pow_le_pow_right (by omega) (by omega)
  have hpow : (2 : Nat) ^ (b + 1 + 1) = 2 * 2 ^ (b + 1) := by
    rw [Nat.pow_succ]; ring
  omega

theorem perfectSizeBelow_gap {m n : Nat}
    (h : perfectSizeBelow m < perfectSizeBelow n) : m < perfectSizeBelow n := by
  obtain ⟨a, ha⟩ := perfectSizeBelow_shape m
  obtain ⟨b, hb⟩ := perfectSizeBelow_shape n
  have hmax := perfectSizeBelow_max m
  have hpa : 0 < 2 ^ (a + 1) := Nat.pos_pow_of_pos _ (by omega)
  have hpb : 0 < 2 ^ (b + 1) := Nat.pos_pow_of_pos _ (by omega)
  have hab : a < b := by
    by_contra hba
    push_neg at hba
    have := Nat.pow_le_pow_right (show 0 < 2 by omega) (Nat.succ_le_succ hba)
    omega
  have hstep : 2 ^ (a + 1 + 1) ≤ 2 ^ (b + 1) :=
    Nat.pow_le_pow_right (by omega) (by omega)
  have hpow : (2 : Nat) ^ (a + 1 + 1) = 2 * 2 ^ (a + 1) := by
    rw [Nat.pow_succ]; ring
  omega

theorem peaksAux_fuel : ∀ (n f1 f2 : Nat), n ≤ f1 → n ≤ f2 →
    peaksAux f1 n = peaksAux f2 n := by
  intro n
  induction n using Nat.strong_induction_on with
  | _ n ih =>
    intro f1 f2 h1 h2
    cases n with
    | zero => cases f1 <;> cases f2 <;> rfl
    | succ m =>
      cases f1 with
      | zero => omega
      | succ g1 =>
        cases f2 with
        | zero => omega
        | succ g2 =>
          simp only [peaksAux]
          have hs1 : 1 ≤ perfectSizeBelow (m + 1) := perfectSizeBelow_pos _
          congr 1
          exact congrArg (List.map _)
            (ih (m + 1 - perfectSizeBelow (m + 1)) (by omega) g1 g2 (by omega) (by omega))

theorem peaks_zero : peaks 0 = [] := rfl

theorem peaks_succ (n : Nat) :
    peaks (n + 1) =
      (perfectSizeBelow (n + 1) - 1) ::
        (peaks (n + 1 - perfectSizeBelow (n + 1))).map (· + perfectSizeBelow (n + 1)) := by
  have hs1 : 1 ≤ perfectSizeBelow (n + 1) := perfectSizeBelow_pos _
  show peaksAux (n + 1) (n + 1) = _
  simp only [peaksAux]
  congr 1
  exact congrArg (List.map _)
    (peaksAux_fuel (n + 1 - perfectSizeBelow (n + 1)) n _ (by omega) (by omega))

theorem peaks_lt : ∀ (n : Nat), ∀ x ∈ peaks n, x < n := by
  intro n
  induction n using Nat.strong_induction_on with
  | _ n ih =>
    cases n with
    | zero => intro x hx; simp [peaks_zero] at hx
    | succ m =>
      intro x hx
      rw [peaks_succ] at hx
      have hs1 : 1 ≤ perfectSizeBelow (m + 1) := perfectSizeBelow_pos _
      have hsle : perfectSizeBelow (m + 1) ≤ m + 1 := perfectSizeBelow_le (by omega)
      rcases List.mem_cons.mp hx with h | h
      · omega
      · obtain ⟨y, hy, rfl⟩ := List.mem_map.mp h
        have := ih (m + 1 - perfectSizeBelow (m + 1)) (by omega) y hy
        omega

theorem peaks_pairwise : ∀ (n : Nat), (peaks n).Pairwise (· < ·) := by
  intro n
  induction n using Nat.strong_induction_on with
  | _ n ih =>
    cases n with
    | zero => rw [peaks_zero]; exact List.Pairwise.nil
    | succ m =>
      rw [peaks_succ]
      have hs1 : 1 ≤ perfectSizeBelow (m + 1) := perfectSizeBelow_pos _
      refine List.pairwise_cons.mpr ⟨?_, ?_⟩
      · intro x hx
        obtain ⟨y, hy, rfl⟩ := List.mem_map.mp hx
        omega
      · refine List.pairwise_map.mpr ?_
        exact (ih (m + 1 - perfectSizeBelow (m + 1)) (by omega)).imp (by omega)

theorem peaks_nodup (n : Nat) : (peaks n).Nodup :=
  (peaks_pairwise n).imp fun h => Nat.ne_of_lt h

/-- The greedy decomposition consumes every node, so the last node of a
non-empty forest is always a peak. -/
theorem sub_one_mem_peaks : ∀ (n : Nat), 1 ≤ n → n - 1 ∈ peaks n := by
  intro n
  induction n using Nat.strong_induction_on with
  | _ n ih =>
    intro hn
    cases n with
    | zero => omega
    | succ m =>
      rw [peaks_succ]
      simp only [Nat.add_sub_cancel]
      have hs1 : 1 ≤ perfectSizeBelow (m + 1) := perfectSizeBelow_pos _
      have hsle : perfectSizeBelow (m + 1) ≤ m + 1 := perfectSizeBelow_le (by omega)
      by_cases hfull : perfectSizeBelow (m + 1) = m + 1
      · exact List.mem_cons.mpr (Or.inl (by omega))
      · have hmem := ih (m + 1 - perfectSizeBelow (m + 1)) (by omega) (by omega)
        refine List.mem_cons_of_mem _ (List.mem_map.mpr
          ⟨m + 1 - perfectSizeBelow (m + 1) - 1, hmem, by omega⟩)

/-- Peak lists of different sizes differ: the larger forest's last node is
a peak beyond every position of the smaller forest. -/
theorem peaks_ne_of_lt {m n : Nat} (h : m < n) : peaks m ≠ peaks n := by
  intro he
  have hn : n - 1 ∈ peaks n := sub_one_mem_peaks n (by omega)
  rw [← he] at hn
  have := peaks_lt m (n - 1) hn
  omega

/-! ### The lock-step common-prefix removal -/

theorem dropCommon_nil_left (B : List Nat) : dropCommon [] B = ([], B) := by
  cases B <;> rfl

theorem dropCommon_nil_right (A : List Nat) : dropCommon A [] = (A, []) := by
  cases A <;> rfl

theorem dropCommon_cons (a b : Nat) (as bs : List Nat) :
    dropCommon (a :: as) (b :: bs) =
      if a = b then dropCommon as bs else (a :: as, b :: bs) := rfl

theorem dropCommon_prefix : ∀ (A B : List Nat),
    ∃ p, A = p ++ (dropCommon A B).1 ∧ B = p ++ (dropCommon A B).2 := by
  intro A
  induction A with
  | nil =>
    intro B
    exact ⟨[], by simp [dropCommon_nil_left], by simp [dropCommon_nil_left]⟩
  | cons a as ih =>
    intro B
    cases B with
    | nil => exact ⟨[], by simp [dropCommon_nil_right], by simp [dropCommon_nil_right]⟩
    | cons b bs =>
      rw [dropCommon_cons]
      by_cases hab : a = b
      · subst hab
        rw [if_pos rfl]
        obtain ⟨p, h1, h2⟩ := ih bs
        exact ⟨a :: p, by rw [List.cons_append, ← h1], by rw [List.cons_append, ← h2]⟩
      · exact ⟨[], by rw [if_neg hab]; rfl, by rw [if_neg hab]; rfl⟩

theorem dropCommon_ne_heads : ∀ (A B : List Nat) (a b : Nat) (as bs : List Nat),
    (dropCommon A B).1 = a :: as → (dropCommon A B).2 = b :: bs → a ≠ b := by
  intro A
  induction A with
  | nil =>
    intro B a b as bs h1 _
    rw [dropCommon_nil_left] at h1
    exact absurd h1 (by simp)
  | cons x xs ih =>
    intro B a b as bs h1 h2
    cases B with
    | nil =>
      rw [dropCommon_nil_right] at h2
      exact absurd h2 (by simp)
    | cons y ys =>
      rw [dropCommon_cons] at h1 h2
      by_cases hxy : x = y
      · rw [if_pos hxy] at h1 h2
        exact ih ys a b as bs h1 h2
      · rw [if_neg hxy] at h1 h2
        have ha : a = x := by simpa using congrArg (fun l => l.headI) h1.symm
        have hb : b = y := by simpa using congrArg (fun l => l.headI) h2.symm
        rw [ha, hb]
        exact hxy

theorem dropCommon_map (c : Nat) : ∀ (A B : List Nat),
    dropCommon (A.map (· + c)) (B.map (· + c)) =
      ((dropCommon A B).1.map (· + c), (dropCommon A B).2.map (· + c)) := by
  intro A
  induction A with
  | nil =>
    intro B
    simp [dropCommon_nil_left]
  | cons a as ih =>
    intro B
    cases B with
    | nil => simp [dropCommon_nil_right]
    | cons b bs =>
      simp only [List.map_cons, dropCommon_cons]
      by_cases hab : a = b
      · rw [if_pos hab, if_pos (by omega), ih bs]
      · rw [if_neg hab, if_neg (by omega)]
        simp

theorem dropCommonLoop_cons (a b : Nat) (as bs : List Nat) :
    dropCommonLoop (a :: as) (b :: bs) =
      if a = b then dropCommonLoop as bs else some (a :: as, b :: bs) := rfl

/-- On two equal lists the source loop consumes both in lock-step, reaches
`None == None`, and never exits: the model yields no value. -/
theorem dropCommonLoop_self : ∀ (A : List Nat), dropCommonLoop A A = none := by
  intro A
  induction A with
  | nil => rfl
  | cons a as ih => rw [dropCommonLoop_cons, if_pos rfl, ih]

/-- Whenever the two lists differ the loop terminates, and its result is
the total `dropCommon`. -/
theorem dropCommonLoop_eq_some : ∀ (A B : List Nat), A ≠ B →
    dropCommonLoop A B = some (dropCommon A B) := by
  intro A
  induction A with
  | nil =>
    intro B hne
    cases B with
    | nil => exact absurd rfl hne
    | cons b bs => rw [dropCommon_nil_left]; rfl
  | cons a as ih =>
    intro B hne
    cases B with
    | nil => rw [dropCommon_nil_right]; rfl
    | cons b bs =>
      rw [dropCommonLoop_cons, dropCommon_cons]
      by_cases hab : a = b
      · subst hab
        have hne' : as ≠ bs := fun hc => hne (by rw [hc])
        rw [if_pos rfl, if_pos rfl, ih bs hne']
      · rw [if_neg hab, if_neg hab]

/-- Divergence: after removing the common prefix of `peaks m` and
`peaks n` (`m ≤ n`), every remaining new peak lies at or beyond position
`m` — new peaks are only created past the whole old forest. -/
theorem dropCommon_peaks_ge : ∀ (m n : Nat), m ≤ n →
    ∀ x ∈ (dropCommon (peaks m) (peaks n)).2, m ≤ x := by
  intro m
  induction m using Nat.strong_induction_on with
  | _ m ih =>
    intro n hmn x hx
    cases m with
    | zero => exact Nat.zero_le x
    | succ m0 =>
      cases n with
      | zero => omega
      | succ n0 =>
        rw [peaks_succ, peaks_succ] at hx
        have h1m : 1 ≤ perfectSizeBelow (m0 + 1) := perfectSizeBelow_pos _
        have h1n : 1 ≤ perfectSizeBelow (n0 + 1) := perfectSizeBelow_pos _
        by_cases hss : perfectSizeBelow (m0 + 1) = perfectSizeBelow (n0 + 1)
        · rw [← hss] at hx
          rw [dropCommon_cons, if_pos rfl, dropCommon_map] at hx
          obtain ⟨y, hy, rfl⟩ := List.mem_map.mp hx
          have hrec := ih (m0 + 1 - perfectSizeBelow (m0 + 1)) (by omega)
            (n0 + 1 - perfectSizeBelow (m0 + 1)) (by omega) y hy
          have hle : perfectSizeBelow (m0 + 1) ≤ m0 + 1 := perfectSizeBelow_le (by omega)
          omega
        · have hmono : perfectSizeBelow (m0 + 1) ≤ perfectSizeBelow (n0 + 1) :=
            perfectSizeBelow_mono (by omega) hmn
          have hgap : m0 + 1 < perfectSizeBelow (n0 + 1) :=
            perfectSizeBelow_gap (by omega)
          rw [dropCommon_cons, if_neg (by omega)] at hx
          rcases List.mem_cons.mp hx with h | h
          · omega
          · obtain ⟨y, hy, rfl⟩ := List.mem_map.mp h
            omega

/-! ### Properties of `peaks_to_prune_and_store` -/

theorem p2ps_eq (m n : Nat) :
    peaks_to_prune_and_store m n = dropCommon (peaks m) (peaks n) := by
  unfold peaks_to_prune_and_store
  by_cases hm : m = 0
  · subst hm; rw [if_pos rfl, peaks_zero]
  · rw [if_neg hm]

theorem peaksBefore_eq (m : Nat) : (if m = 0 then [] else peaks m) = peaks m := by
  by_cases hm : m = 0
  · subst hm; rw [if_pos rfl, peaks_zero]
  · rw [if_neg hm]

/-- Growing appends (`old_size < new_size`) always hit the loop's
terminating case, with the total `dropCommon` as its value. -/
theorem p2ps_loop_eq_some {m n : Nat} (h : m < n) :
    peaks_to_prune_and_store_loop m n = some (peaks_to_prune_and_store m n) := by
  unfold peaks_to_prune_and_store_loop
  rw [peaksBefore_eq, p2ps_eq]
  exact dropCommonLoop_eq_some (peaks m) (peaks n) (peaks_ne_of_lt h)

/-- At equal sizes the two peak lists coincide and the loop never
returns. -/
theorem p2ps_loop_self (n : Nat) : peaks_to_prune_and_store_loop n n = none := by
  unfold peaks_to_prune_and_store_loop
  rw [peaksBefore_eq]
  exact dropCommonLoop_self (peaks n)

theorem p2ps_prefix (m n : Nat) :
    ∃ p, peaks m = p ++ (peaks_to_prune_and_store m n).1 ∧
      peaks n = p ++ (peaks_to_prune_and_store m n).2 := by
  rw [p2ps_eq]
  exact dropCommon_prefix (peaks m) (peaks n)

theorem p2ps_fst_lt (m n : Nat) : ∀ x ∈ (peaks_to_prune_and_store m n).1, x < m := by
  intro x hx
  obtain ⟨p, h1, _⟩ := p2ps_prefix m n
  exact peaks_lt m x (h1 ▸ List.mem_append_right p hx)

theorem p2ps_snd_lt (m n : Nat) : ∀ x ∈ (peaks_to_prune_and_store m n).2, x < n := by
  intro x hx
  obtain ⟨p, _, h2⟩ := p2ps_prefix m n
  exact peaks_lt n x (h2 ▸ List.mem_append_right p hx)

theorem p2ps_snd_ge {m n : Nat} (hmn : m ≤ n) :
    ∀ x ∈ (peaks_to_prune_and_store m n).2, m ≤ x := by
  rw [p2ps_eq]
  exact dropCommon_peaks_ge m n hmn

theorem p2ps_fst_pairwise (m n : Nat) :
    (peaks_to_prune_and_store m n).1.Pairwise (· < ·) := by
  obtain ⟨p, h1, _⟩ := p2ps_prefix m n
  exact (List.pairwise_append.mp (h1 ▸ peaks_pairwise m)).2.1

theorem p2ps_snd_pairwise (m n : Nat) :
    (peaks_to_prune_and_store m n).2.Pairwise (· < ·) := by
  obtain ⟨p, _, h2⟩ := p2ps_prefix m n
  exact (List.pairwise_append.mp (h2 ▸ peaks_pairwise n)).2.1

theorem p2ps_disjoint {m n : Nat} (hmn : m ≤ n) :
    (peaks_to_prune_and_store m n).1.Disjoint (peaks_to_prune_and_store m n).2 := by
  intro x hx1 hx2
  have h1 := p2ps_fst_lt m n x hx1
  have h2 := p2ps_snd_ge hmn x hx2
  omega

/-- The central set identity: deleting the prune positions and inserting
the store positions turns the old peak set into the new peak set. -/
theorem mem_peaks_after_diff {m n : Nat} (hmn : m ≤ n) (x : Nat) :
    (x ∉ (peaks_to_prune_and_store m n).1 ∧
      (x ∈ (peaks_to_prune_and_store m n).2 ∨ x ∈ peaks m)) ↔ x ∈ peaks n := by
  obtain ⟨p, hA, hB⟩ := p2ps_prefix m n
  constructor
  · rintro ⟨hnot, h | h⟩
    · rw [hB]; exact List.mem_append_right p h
    · rcases List.mem_append.mp (hA ▸ h) with h' | h'
      · rw [hB]; exact List.mem_append_left _ h'
      · exact absurd h' hnot
  · intro hx
    rcases List.mem_append.mp (hB ▸ hx) with h | h
    · have hnd : (p ++ (peaks_to_prune_and_store m n).1).Nodup := hA ▸ peaks_nodup m
      have hdisj := List.disjoint_of_nodup_append hnd
      exact ⟨fun hc => hdisj h hc, Or.inr (by rw [hA]; exact List.mem_append_left _ h)⟩
    · have hge := p2ps_snd_ge hmn x h
      exact ⟨fun hc => absurd (p2ps_fst_lt m n x hc) (by omega), Or.inl h⟩

/-! ### Folded map updates -/

theorem insertKeys_cons (p : Nat) (ps : List Nat) (m : NodesMap) :
    insertKeys (p :: ps) m = insertKeys ps (m.insert p 0) := rfl

theorem eraseKeys_cons (p : Nat) (ps : List Nat) (m : NodesMap) :
    eraseKeys (p :: ps) m = eraseKeys ps (m.erase p) := rfl

theorem mem_insertKeys : ∀ (ps : List Nat) (m : NodesMap) (x : Nat),
    x ∈ insertKeys ps m ↔ x ∈ ps ∨ x ∈ m := by
  intro ps
  induction ps with
  | nil => intro m x; simp [insertKeys]
  | cons p ps ih =>
    intro m x
    rw [insertKeys_cons, ih, Finmap.mem_insert, List.mem_cons]
    tauto

theorem mem_eraseKeys : ∀ (ps : List Nat) (m : NodesMap) (x : Nat),
    x ∈ eraseKeys ps m ↔ x ∉ ps ∧ x ∈ m := by
  intro ps
  induction ps with
  | nil => intro m x; simp [eraseKeys]
  | cons p ps ih =>
    intro m x
    rw [eraseKeys_cons, ih, Finmap.mem_erase, List.mem_cons]
    tauto

theorem lookup_eraseKeys : ∀ (ps : List Nat) (m : NodesMap) (x : Nat), x ∉ ps →
    (eraseKeys ps m).lookup x = m.lookup x := by
  intro ps
  induction ps with
  | nil => intro m x _; rfl
  | cons p ps ih =>
    intro m x hx
    rw [List.mem_cons, not_or] at hx
    rw [eraseKeys_cons, ih _ _ hx.2, Finmap.lookup_erase_ne hx.1]

/-! ### The append walk -/

/-- Well-formedness of the `peaks_to_store` cursor relative to the walk:
strictly ascending, and every pending position falls inside the remaining
`len` iterations that start at `acc.nodeIndex`. -/
def StoreOk (acc : WalkAcc) (len : Nat) : Prop :=
  acc.toStore.Pairwise (· < ·) ∧
    ∀ p ∈ acc.toStore, acc.nodeIndex ≤ p ∧ p < acc.nodeIndex + len

theorem walkStep_nodeIndex (ph : Nat) (acc : WalkAcc) (e : Node) :
    (walkStep ph acc e).nodeIndex = acc.nodeIndex + 1 := by
  simp only [walkStep]

theorem storeOk_step {acc : WalkAcc} {len : Nat} (ph : Nat) (e : Node)
    (h : StoreOk acc (len + 1)) : StoreOk (walkStep ph acc e) len := by
  obtain ⟨hpair, hbound⟩ := h
  cases acc with
  | mk nds ext ts li ni =>
    cases ts with
    | nil =>
      exact ⟨List.Pairwise.nil, by intro p hp; simp [walkStep] at hp⟩
    | cons q rest =>
      simp only [walkStep]
      by_cases hq : q = ni
      · rw [if_pos hq]
        refine ⟨(List.pairwise_cons.mp hpair).2, ?_⟩
        intro p hp
        have hqp := (List.pairwise_cons.mp hpair).1 p hp
        have := hbound p (List.mem_cons_of_mem q hp)
        simp only at this ⊢
        omega
      · rw [if_neg hq]
        refine ⟨hpair, ?_⟩
        intro p hp
        have := hbound p hp
        have hqni : ni ≤ q := (hbound q (List.mem_cons_self q rest)).1
        rcases List.mem_cons.mp hp with rfl | hmem
        · simp only at this ⊢; omega
        · have hqp := (List.pairwise_cons.mp hpair).1 p hmem
          simp only at this ⊢
          omega

theorem walk_nodeIndex (ph : Nat) : ∀ (elems : List Node) (acc : WalkAcc),
    (walk ph acc elems).nodeIndex = acc.nodeIndex + elems.length := by
  intro elems
  induction elems with
  | nil => intro acc; simp [walk]
  | cons e es ih =>
    intro acc
    rw [walk, ih, walkStep_nodeIndex, List.length_cons]
    omega

theorem walk_leafIndex (ph : Nat) : ∀ (elems : List Node) (acc : WalkAcc),
    (walk ph acc elems).leafIndex = acc.leafIndex + leafCountOf elems := by
  intro elems
  induction elems with
  | nil => intro acc; simp [walk, leafCountOf]
  | cons e es ih =>
    intro acc
    rw [walk, ih]
    cases e with
    | Data payload => simp [walkStep, bumpLeaf, leafCountOf, List.countP_cons]; omega
    | Hash digest => simp [walkStep, bumpLeaf, leafCountOf, List.countP_cons]

theorem walk_lookup_not_store (ph : Nat) :
    ∀ (elems : List Node) (acc : WalkAcc) (x : Nat), x ∉ acc.toStore →
    (walk ph acc elems).nodes.lookup x = acc.nodes.lookup x := by
  intro elems
  induction elems with
  | nil => intro acc x _; rfl
  | cons e es ih =>
    intro acc x hx
    rw [walk]
    cases acc with
    | mk nds ext ts li ni =>
      cases ts with
      | nil => exact ih _ x (by simp [walkStep])
      | cons q rest =>
        simp only [List.mem_cons, not_or] at hx
        simp only [walkStep]
        by_cases hq : q = ni
        · rw [if_pos hq]
          rw [ih _ x (by simpa using hx.2)]
          exact Finmap.lookup_insert_of_ne _ (by omega)
        · rw [if_neg hq]
          exact ih _ x (by simp; tauto)

theorem walkStep_external (ph : Nat) (acc : WalkAcc) (e : Node) :
    (walkStep ph acc e).external =
      acc.external.insert (offchainKey ph acc.nodeIndex) (encodeNode e) := rfl

theorem walkStep_pop (ph : Nat) (nds : NodesMap) (ext : OffchainDb)
    (rest : List Nat) (li ni : Nat) (e : Node) :
    walkStep ph ⟨nds, ext, ni :: rest, li, ni⟩ e =
      ⟨nds.insert ni e.hash, ext.insert (offchainKey ph ni) (encodeNode e),
        rest, bumpLeaf e li, ni + 1⟩ := by
  simp [walkStep]

theorem walkStep_keep (ph : Nat) (nds : NodesMap) (ext : OffchainDb)
    (q : Nat) (rest : List Nat) (li ni : Nat) (e : Node) (hq : q ≠ ni) :
    walkStep ph ⟨nds, ext, q :: rest, li, ni⟩ e =
      ⟨nds, ext.insert (offchainKey ph ni) (encodeNode e),
        q :: rest, bumpLeaf e li, ni + 1⟩ := by
  simp [walkStep, hq]

theorem walk_lookup_store (ph : Nat) :
    ∀ (elems : List Node) (nds : NodesMap) (ext : OffchainDb) (ts : List Nat)
      (li ni : Nat),
    ts.Pairwise (· < ·) → (∀ r ∈ ts, ni ≤ r ∧ r < ni + elems.length) →
    ∀ p ∈ ts,
    (walk ph ⟨nds, ext, ts, li, ni⟩ elems).nodes.lookup p =
      some (Node.hash (elems.getD (p - ni) (Node.Hash 0))) := by
  intro elems
  induction elems with
  | nil =>
    intro nds ext ts li ni _ hbound p hp
    have h2 := hbound p hp
    simp only [List.length_nil] at h2
    exact ((by omega : False)).elim
  | cons e es ih =>
    intro nds ext ts li ni hpair hbound p hp
    cases ts with
    | nil => exact absurd hp (List.not_mem_nil p)
    | cons q rest =>
      have hqb := hbound q (List.mem_cons_self q rest)
      have htail := (List.pairwise_cons.mp hpair).1
      rw [walk]
      by_cases hq : q = ni
      · subst hq
        rw [walkStep_pop]
        by_cases hpq : p = q
        · subst hpq
          have hnotin : p ∉ rest := fun hc => absurd (htail p hc) (by omega)
          rw [walk_lookup_not_store ph es _ p hnotin, Finmap.lookup_insert]
          simp
        · have hpm : p ∈ rest := (List.mem_cons.mp hp).resolve_left hpq
          have hplt := hbound p hp
          have hpgt : q < p := htail p hpm
          rw [ih (nds.insert q e.hash) _ rest (bumpLeaf e li) (q + 1)
            (List.pairwise_cons.mp hpair).2
            (fun r hr => by
              have h1 := htail r hr
              have h2 := hbound r (List.mem_cons_of_mem q hr)
              simp only [List.length_cons] at h2
              omega)
            p hpm]
          rw [show p - q = (p - (q + 1)) + 1 from by omega, List.getD_cons_succ]
      · rw [walkStep_keep ph nds ext q rest li ni e hq]
        have hple := hbound p hp
        simp only [List.length_cons] at hple
        have hpge : ni + 1 ≤ p := by
          rcases List.mem_cons.mp hp with rfl | hmem
          · omega
          · have := htail p hmem; omega
        rw [ih nds _ (q :: rest) (bumpLeaf e li) (ni + 1) hpair
          (fun r hr => by
            have h2 := hbound r hr
            simp only [List.length_cons] at h2
            rcases List.mem_cons.mp hr with rfl | hmem
            · omega
            · have := htail r hmem; omega)
          p hp]
        rw [show p - ni = (p - (ni + 1)) + 1 from by omega, List.getD_cons_succ]

theorem walk_mem_nodes (ph : Nat) (elems : List Node) (nds : NodesMap)
    (ext : OffchainDb) (ts : List Nat) (li ni : Nat)
    (hpair : ts.Pairwise (· < ·))
    (hbound : ∀ r ∈ ts, ni ≤ r ∧ r < ni + elems.length) (x : Nat) :
    x ∈ (walk ph ⟨nds, ext, ts, li, ni⟩ elems).nodes ↔ x ∈ ts ∨ x ∈ nds := by
  by_cases hx : x ∈ ts
  · refine iff_of_true ?_ (Or.inl hx)
    exact Finmap.mem_iff.mpr ⟨_, walk_lookup_store ph elems nds ext ts li ni hpair hbound x hx⟩
  · have hlk := walk_lookup_not_store ph elems ⟨nds, ext, ts, li, ni⟩ x hx
    constructor
    · intro hmem
      obtain ⟨b, hb⟩ := Finmap.mem_iff.mp hmem
      rw [hlk] at hb
      exact Or.inr (Finmap.mem_iff.mpr ⟨b, hb⟩)
    · intro h
      obtain ⟨b, hb⟩ := Finmap.mem_iff.mp (h.resolve_left hx)
      exact Finmap.mem_iff.mpr ⟨b, by rw [hlk]; exact hb⟩

theorem walk_external_low (ph : Nat) :
    ∀ (elems : List Node) (acc : WalkAcc) (hsh p : Nat), p < acc.nodeIndex →
    (walk ph acc elems).external.lookup (hsh, p) = acc.external.lookup (hsh, p) := by
  intro elems
  induction elems with
  | nil => intro acc hsh p _; rfl
  | cons e es ih =>
    intro acc hsh p hlt
    rw [walk, ih (walkStep ph acc e) hsh p (by rw [walkStep_nodeIndex]; omega),
      walkStep_external]
    exact Finmap.lookup_insert_of_ne _ (by rintro ⟨h1, h2⟩; omega)

theorem walk_external_at (ph : Nat) :
    ∀ (elems : List Node) (acc : WalkAcc) (i : Nat), i < elems.length →
    (walk ph acc elems).external.lookup (offchainKey ph (acc.nodeIndex + i)) =
      some (encodeNode (elems.getD i (Node.Hash 0))) := by
  intro elems
  induction elems with
  | nil => intro acc i hi; simp at hi
  | cons e es ih =>
    intro acc i hi
    rw [walk]
    cases i with
    | zero =>
      rw [Nat.add_zero]
      rw [show offchainKey ph acc.nodeIndex = (ph, acc.nodeIndex) from rfl]
      rw [walk_external_low ph es (walkStep ph acc e) ph acc.nodeIndex
        (by rw [walkStep_nodeIndex]; omega), walkStep_external]
      rw [show offchainKey ph acc.nodeIndex = (ph, acc.nodeIndex) from rfl]
      rw [Finmap.lookup_insert]
      simp
    | succ j =>
      have hkey : acc.nodeIndex + (j + 1) = (walkStep ph acc e).nodeIndex + j := by
        rw [walkStep_nodeIndex]; omega
      rw [hkey, ih (walkStep ph acc e) j (by simp at hi; omega), List.getD_cons_succ]

/-! ### Characterizing a successful append -/

theorem append_nil (env : Env) (st : MmrState) (pos : Nat) :
    append env st pos [] = .ok st := rfl

theorem append_ok_of_ne_nil (env : Env) (st : MmrState) (elems : List Node)
    (hne : elems ≠ []) :
    append env st (mmrSize st.numLeaves) elems = .ok (appendCore env st elems) := by
  unfold append
  rw [if_neg (by simpa [List.isEmpty_iff] using hne), if_neg (by simp)]

theorem append_error (env : Env) (st : MmrState) (pos : Nat) (elems : List Node)
    (hne : elems ≠ []) (hpos : pos ≠ mmrSize st.numLeaves) :
    append env st pos elems = .error .inconsistentStore := by
  unfold append
  rw [if_neg (by simpa [List.isEmpty_iff] using hne), if_pos hpos]

theorem append_ok_inv (env : Env) (st : MmrState) (pos : Nat) (elems : List Node)
    (st' : MmrState) (hne : elems ≠ [])
    (h : append env st pos elems = .ok st') :
    pos = mmrSize st.numLeaves ∧ st' = appendCore env st elems := by
  by_cases hpos : pos = mmrSize st.numLeaves
  · subst hpos
    rw [append_ok_of_ne_nil env st elems hne] at h
    cases h
    exact ⟨rfl, rfl⟩
  · rw [append_error env st pos elems hne hpos] at h
    cases h

theorem appendCore_numLeaves (env : Env) (st : MmrState) (elems : List Node) :
    (appendCore env st elems).numLeaves = st.numLeaves + leafCountOf elems := by
  simp only [appendCore]
  exact walk_leafIndex env.parentHash elems _

/-- The `peaks_to_store` cursor of an append from `size` to
`size + len` satisfies the walk's well-formedness conditions. -/
theorem append_store_conditions (size len : Nat) :
    (peaks_to_prune_and_store size (size + len)).2.Pairwise (· < ·) ∧
      ∀ r ∈ (peaks_to_prune_and_store size (size + len)).2,
        size ≤ r ∧ r < size + len :=
  ⟨p2ps_snd_pairwise size (size + len), fun r hr =>
    ⟨p2ps_snd_ge (Nat.le_add_right size len) r hr, p2ps_snd_lt size (size + len) r hr⟩⟩

theorem appendCore_mem_nodes (env : Env) (st : MmrState) (elems : List Node)
    (x : Nat) :
    x ∈ (appendCore env st elems).nodes ↔
      x ∉ (peaks_to_prune_and_store (mmrSize st.numLeaves)
            (mmrSize st.numLeaves + elems.length)).1 ∧
        (x ∈ (peaks_to_prune_and_store (mmrSize st.numLeaves)
            (mmrSize st.numLeaves + elems.length)).2 ∨ x ∈ st.nodes) := by
  obtain ⟨hpair, hbound⟩ := append_store_conditions (mmrSize st.numLeaves) elems.length
  simp only [appendCore]
  rw [mem_eraseKeys, walk_mem_nodes env.parentHash elems st.nodes st.external _
    st.numLeaves (mmrSize st.numLeaves) hpair hbound x]

theorem appendCore_lookup_store (env : Env) (st : MmrState) (elems : List Node)
    (p : Nat)
    (hp : p ∈ (peaks_to_prune_and_store (mmrSize st.numLeaves)
        (mmrSize st.numLeaves + elems.length)).2) :
    (appendCore env st elems).nodes.lookup p =
      some (Node.hash (elems.getD (p - mmrSize st.numLeaves) (Node.Hash 0))) := by
  obtain ⟨hpair, hbound⟩ := append_store_conditions (mmrSize st.numLeaves) elems.length
  have hnp : p ∉ (peaks_to_prune_and_store (mmrSize st.numLeaves)
      (mmrSize st.numLeaves + elems.length)).1 :=
    fun hc => p2ps_disjoint (Nat.le_add_right _ _) hc hp
  simp only [appendCore]
  rw [lookup_eraseKeys _ _ p hnp]
  exact walk_lookup_store env.parentHash elems st.nodes st.external _
    st.numLeaves (mmrSize st.numLeaves) hpair hbound p hp

theorem appendCore_lookup_untouched (env : Env) (st : MmrState) (elems : List Node)
    (p : Nat)
    (hp2 : p ∉ (peaks_to_prune_and_store (mmrSize st.numLeaves)
        (mmrSize st.numLeaves + elems.length)).2)
    (hp1 : p ∉ (peaks_to_prune_and_store (mmrSize st.numLeaves)
        (mmrSize st.numLeaves + elems.length)).1) :
    (appendCore env st elems).nodes.lookup p = st.nodes.lookup p := by
  simp only [appendCore]
  rw [lookup_eraseKeys _ _ p hp1]
  exact walk_lookup_not_store env.parentHash elems
    ⟨st.nodes, st.external, _, st.numLeaves, mmrSize st.numLeaves⟩ p hp2

theorem appendCore_external_at (env : Env) (st : MmrState) (elems : List Node)
    (i : Nat) (hi : i < elems.length) :
    (appendCore env st elems).external.lookup
        (offchainKey env.parentHash (mmrSize st.numLeaves + i)) =
      some (encodeNode (elems.getD i (Node.Hash 0))) := by
  simp only [appendCore]
  exact walk_external_at env.parentHash elems _ i hi

/-! ### The durable-peak-map invariant -/

/-- The hard invariant of the spec: the key set of the durable `Nodes` map
is exactly the peak set of the total node count derived from the stored
leaf counter. -/
def Inv (st : MmrState) : Prop :=
  st.nodes.keys = (peaks (mmrSize st.numLeaves)).toFinset

theorem inv_mem {st : MmrState} (h : Inv st) (x : Nat) :
    x ∈ st.nodes ↔ x ∈ peaks (mmrSize st.numLeaves) := by
  rw [← Finmap.mem_keys, h, List.mem_toFinset]

theorem inv_of_mem {st : MmrState}
    (h : ∀ x, x ∈ st.nodes ↔ x ∈ peaks (mmrSize st.numLeaves)) : Inv st :=
  Finset.ext fun x => by rw [Finmap.mem_keys, List.mem_toFinset]; exact h x

theorem initState_inv : Inv initState := by
  apply inv_of_mem
  intro x
  show x ∈ (∅ : NodesMap) ↔ x ∈ peaks (mmrSize 0)
  rw [show mmrSize 0 = 0 from rfl, peaks_zero]
  simp [Finmap.not_mem_empty]

theorem appendCore_inv (env : Env) (st : MmrState) (elems : List Node)
    (hInv : Inv st) (hVB : ValidBatch st.numLeaves elems) :
    Inv (appendCore env st elems) := by
  apply inv_of_mem
  intro x
  rw [appendCore_numLeaves env st elems, hVB, appendCore_mem_nodes env st elems x]
  rw [inv_mem hInv x]
  exact mem_peaks_after_diff (Nat.le_add_right _ _) x

theorem runAppends_inv : ∀ (bs : List (List Node)) (env : Env) (st : MmrState),
    Inv st → ValidBatches st.numLeaves bs →
    ∃ st', runAppends env st bs = some st' ∧ Inv st' := by
  intro bs
  induction bs with
  | nil => intro env st hInv _; exact ⟨st, rfl, hInv⟩
  | cons b bs ih =>
    intro env st hInv hVB
    obtain ⟨hb, hbs⟩ := hVB
    by_cases hbe : b = []
    · subst hbe
      obtain ⟨st', hrun, hinv'⟩ := ih env st hInv (by simpa [leafCountOf] using hbs)
      refine ⟨st', ?_, hinv'⟩
      rw [runAppends, append_nil]
      exact hrun
    · have hnl := appendCore_numLeaves env st b
      obtain ⟨st', hrun, hinv'⟩ := ih env (appendCore env st b)
        (appendCore_inv env st b hInv hb) (by rw [hnl]; exact hbs)
      refine ⟨st', ?_, hinv'⟩
      rw [runAppends, append_ok_of_ne_nil env st b hbe]
      exact hrun

/-! ### Claims -/

/-- A concrete host environment used by the witnesses: block number 5,
parent hash 77, identity block-hash oracle, a `u32` block-number type. -/
def testEnv : Env := ⟨5, 77, fun n => n, u32Max⟩

/-- C1: for every sequence of valid append calls on the RuntimeStorage
variant starting from size 0, every call succeeds and after each append
the key set of the durable `Nodes` map equals exactly the peak set of the
current total node count (derived from the stored leaf count): every
current peak position has an entry and no other position has one.  (Every
prefix of a valid sequence is itself a valid sequence, so the final-state
statement covers each intermediate append.) -/
theorem append_sequence_nodes_eq_peaks (env : Env) (bs : List (List Node))
    (h : ValidBatches 0 bs) :
    ∃ st', runAppends env initState bs = some st' ∧
      st'.nodes.keys = (peaks (mmrSize st'.numLeaves)).toFinset :=
  runAppends_inv bs env initState initState_inv h

theorem append_sequence_nodes_eq_peaks_witness :
    ValidBatches 0 [[Node.Data 10], [Node.Data 11, Node.Hash 12]] ∧
      ∃ st', runAppends testEnv initState [[Node.Data 10], [Node.Data 11, Node.Hash 12]] = some st' ∧
        st'.nodes.keys = (peaks (mmrSize st'.numLeaves)).toFinset :=
  ⟨⟨rfl, rfl, trivial⟩,
    append_sequence_nodes_eq_peaks testEnv [[Node.Data 10], [Node.Data 11, Node.Hash 12]]
      ⟨rfl, rfl, trivial⟩⟩

/-- C2 counterexample: the claim quantifies over all
`old_size ≤ new_size`, but at `old_size = new_size` (here `3 = 3`) the two
peak lists coincide, the source's `while peek() == peek()` loop reaches
`None == None` on two exhausted iterators and never exits, so the function
returns no sequences at all — refuting "returns two ascending
sequences". -/
theorem peak_diff_diverges_at_equal_sizes :
    peaks_to_prune_and_store_loop 3 3 = none := by decide

/-- C2 (amended): for `old_size < new_size` the lock-step loop terminates,
and `peaks_to_prune_and_store` returns two ascending, disjoint sequences
obtained from `peaks old_size` and `peaks new_size` by removing their
longest common ascending prefix (walked in lock-step from the smallest
element); deleting the prune positions from / inserting the store
positions into a map whose key set is `peaks old_size` yields a map whose
key set is exactly `peaks new_size`.  (At `old_size = new_size` the loop
never returns: `peak_diff_diverges_at_equal_sizes`.) -/
theorem peak_diff_correct (oldSize newSize : Nat) (h : oldSize < newSize) :
    peaks_to_prune_and_store_loop oldSize newSize =
      some (peaks_to_prune_and_store oldSize newSize) ∧
    (peaks_to_prune_and_store oldSize newSize).1.Pairwise (· < ·) ∧
    (peaks_to_prune_and_store oldSize newSize).2.Pairwise (· < ·) ∧
    (peaks_to_prune_and_store oldSize newSize).1.Disjoint
      (peaks_to_prune_and_store oldSize newSize).2 ∧
    (∃ p, peaks oldSize = p ++ (peaks_to_prune_and_store oldSize newSize).1 ∧
      peaks newSize = p ++ (peaks_to_prune_and_store oldSize newSize).2 ∧
      ∀ a as b bs, (peaks_to_prune_and_store oldSize newSize).1 = a :: as →
        (peaks_to_prune_and_store oldSize newSize).2 = b :: bs → a ≠ b) ∧
    ∀ (m : NodesMap), m.keys = (peaks oldSize).toFinset →
      (eraseKeys (peaks_to_prune_and_store oldSize newSize).1
        (insertKeys (peaks_to_prune_and_store oldSize newSize).2 m)).keys =
        (peaks newSize).toFinset := by
  refine ⟨p2ps_loop_eq_some h, p2ps_fst_pairwise oldSize newSize,
    p2ps_snd_pairwise oldSize newSize, p2ps_disjoint (Nat.le_of_lt h), ?_, ?_⟩
  · obtain ⟨p, h1, h2⟩ := p2ps_prefix oldSize newSize
    refine ⟨p, h1, h2, ?_⟩
    intro a as b bs ha hb
    rw [p2ps_eq] at ha hb
    exact dropCommon_ne_heads (peaks oldSize) (peaks newSize) a b as bs ha hb
  · intro m hm
    apply Finset.ext
    intro x
    rw [Finmap.mem_keys, List.mem_toFinset, mem_eraseKeys, mem_insertKeys]
    rw [show (x ∈ m) = (x ∈ m.keys) from (propext Finmap.mem_keys).symm, hm,
      List.mem_toFinset]
    exact mem_peaks_after_diff (Nat.le_of_lt h) x

theorem peak_diff_correct_witness :
    1 < 3 ∧
      peaks_to_prune_and_store_loop 1 3 = some (peaks_to_prune_and_store 1 3) ∧
      (eraseKeys (peaks_to_prune_and_store 1 3).1
        (insertKeys (peaks_to_prune_and_store 1 3).2 ((∅ : NodesMap).insert 0 0))).keys =
        (peaks 3).toFinset :=
  ⟨by omega, (peak_diff_correct 1 3 (by omega)).1,
    (peak_diff_correct 1 3 (by omega)).2.2.2.2.2 ((∅ : NodesMap).insert 0 0)
      (by decide)⟩

/-- C3: a non-empty append at a position different from the current total
node count (derived from the stored leaf count) fails with the
inconsistent-store error and leaves the whole storage state — durable
`Nodes` map, `NumberOfLeaves` counter, external content store — entirely
unchanged. -/
theorem append_wrong_pos (env : Env) (st : MmrState) (pos : Nat)
    (elems : List Node) (hne : elems ≠ []) (hpos : pos ≠ mmrSize st.numLeaves) :
    append env st pos elems = .error .inconsistentStore ∧
      appendRun env st pos elems = st := by
  have h := append_error env st pos elems hne hpos
  exact ⟨h, by rw [appendRun, h]⟩

theorem append_wrong_pos_witness :
    ([Node.Data 1] ≠ [] ∧ 9 ≠ mmrSize initState.numLeaves) ∧
      append testEnv initState 9 [Node.Data 1] = .error .inconsistentStore ∧
        appendRun testEnv initState 9 [Node.Data 1] = initState :=
  ⟨⟨by simp, by decide⟩,
    append_wrong_pos testEnv initState 9 [Node.Data 1] (by simp) (by decide)⟩

/-- When both `u32` conversions succeed, the ancestor block number is the
clamped saturating combination of block number, leaf count and leaf
index. -/
theorem parent_block_num_eq (env : Env) (lc pos : Nat) (h1 : lc ≤ u32Max)
    (h2 : leaf_index_that_added_node pos ≤ u32Max) :
    parent_block_num env lc pos =
      some (min (env.blockNumber - lc + leaf_index_that_added_node pos)
        env.blockMax) := by
  unfold parent_block_num
  rw [show u32TryFrom lc = some lc from by unfold u32TryFrom; rw [if_pos h1],
    show u32TryFrom (leaf_index_that_added_node pos) =
        some (leaf_index_that_added_node pos) from by
      unfold u32TryFrom; rw [if_pos h2]]

/-- C4 counterexample: within the claim's regime `L ≤ P`, a stored leaf
count beyond `u32::MAX` makes the source panic at the
`u32::try_from(..).expect` conversion instead of reading under a fork key,
so the claim's "for every node position" read-path behaviour fails. -/
theorem fork_key_read_path_panics :
    get_elem ⟨u32Max + 2, 77, fun n => n, u32Max⟩ ⟨∅, u32Max + 1, ∅⟩ 0 =
      .fatal "leaf-idx < block-num; qed" := by decide

/-- C4 (amended): when the stored leaf count `L` fits in `u32`, does not
exceed the current block number `P`, the position's leaf index `li` fits
in `u32`, and `P - L + li` does not exceed `BlockNumber::MAX` (so neither
expect conversion panics and the saturating addition does not clamp), the
fork key used by the OffchainStorage read path is the hash of the block at
number `P - L + li` — `li` being the leaf index that originally caused the
position to be appended, a pure function of the position alone, and the
hashed block being the ancestor state immediately preceding the
progression step that appended that leaf — and `get_elem` reads the
external store under exactly that key. -/
theorem fork_key_read_path (env : Env) (st : MmrState) (pos : Nat)
    (hL : st.numLeaves ≤ env.blockNumber)
    (hLu : st.numLeaves ≤ u32Max)
    (hli : leaf_index_that_added_node pos ≤ u32Max)
    (hbm : env.blockNumber - st.numLeaves + leaf_index_that_added_node pos ≤
      env.blockMax) :
    (∃ pbn, parent_block_num env st.numLeaves pos = some pbn ∧
      (pbn : Int) =
        (env.blockNumber : Int) - st.numLeaves + leaf_index_that_added_node pos) ∧
    get_elem env st pos = .ok ((st.external.lookup (offchainKey
      (env.blockHash (env.blockNumber - st.numLeaves + leaf_index_that_added_node pos))
      pos)).bind decodeNode) := by
  have h0 := parent_block_num_eq env st.numLeaves pos hLu hli
  rw [min_eq_left hbm] at h0
  refine ⟨⟨env.blockNumber - st.numLeaves + leaf_index_that_added_node pos, h0,
    by omega⟩, ?_⟩
  have hph : parent_hash_of_ancestor_that_added_node env st.numLeaves pos =
      some (env.blockHash (env.blockNumber - st.numLeaves +
        leaf_index_that_added_node pos)) := by
    unfold parent_hash_of_ancestor_that_added_node
    rw [h0]
    rfl
  simp [get_elem, hph]

theorem fork_key_read_path_witness :
    ((⟨∅, 3, ∅⟩ : MmrState).numLeaves ≤ testEnv.blockNumber ∧
      (⟨∅, 3, ∅⟩ : MmrState).numLeaves ≤ u32Max ∧
      leaf_index_that_added_node 4 ≤ u32Max ∧
      testEnv.blockNumber - (⟨∅, 3, ∅⟩ : MmrState).numLeaves +
        leaf_index_that_added_node 4 ≤ testEnv.blockMax) ∧
    get_elem testEnv ⟨∅, 3, ∅⟩ 4 = .ok (((⟨∅, 3, ∅⟩ : MmrState).external.lookup
      (offchainKey (testEnv.blockHash (testEnv.blockNumber -
        (⟨∅, 3, ∅⟩ : MmrState).numLeaves + leaf_index_that_added_node 4)) 4)).bind
      decodeNode) :=
  ⟨⟨by decide, by decide, by decide, by decide⟩,
    (fork_key_read_path testEnv ⟨∅, 3, ∅⟩ 4 (by decide) (by decide) (by decide)
      (by decide)).2⟩

/-- C5: during every successful non-empty append, the full encoded content
of every element — peak and non-peak alike — is written to the external
content store, keyed by the current block's parent hash and the element's
assigned position (`old_size`, `old_size + 1`, … in walk order), while the
durable `Nodes` map additionally receives exactly the positions of the
to-store peak sequence (with the element's digest); positions in neither
the store nor the prune sequence keep their previous durable entry. -/
theorem append_writes (env : Env) (st : MmrState) (pos : Nat)
    (elems : List Node) (st' : MmrState) (hne : elems ≠ [])
    (h : append env st pos elems = .ok st') :
    (∀ i < elems.length,
      st'.external.lookup (offchainKey env.parentHash (mmrSize st.numLeaves + i)) =
        some (encodeNode (elems.getD i (Node.Hash 0)))) ∧
    (∀ p ∈ (peaks_to_prune_and_store (mmrSize st.numLeaves)
        (mmrSize st.numLeaves + elems.length)).2,
      st'.nodes.lookup p =
        some (Node.hash (elems.getD (p - mmrSize st.numLeaves) (Node.Hash 0)))) ∧
    (∀ p, p ∉ (peaks_to_prune_and_store (mmrSize st.numLeaves)
        (mmrSize st.numLeaves + elems.length)).2 →
      p ∉ (peaks_to_prune_and_store (mmrSize st.numLeaves)
        (mmrSize st.numLeaves + elems.length)).1 →
      st'.nodes.lookup p = st.nodes.lookup p) := by
  obtain ⟨-, rfl⟩ := append_ok_inv env st pos elems st' hne h
  exact ⟨fun i hi => appendCore_external_at env st elems i hi,
    fun p hp => appendCore_lookup_store env st elems p hp,
    fun p hp2 hp1 => appendCore_lookup_untouched env st elems p hp2 hp1⟩

theorem append_writes_witness :
    ([Node.Data 5] ≠ [] ∧
      append testEnv initState 0 [Node.Data 5] =
        .ok (appendRun testEnv initState 0 [Node.Data 5])) ∧
    (appendRun testEnv initState 0 [Node.Data 5]).external.lookup
        (offchainKey testEnv.parentHash (mmrSize initState.numLeaves + 0)) =
      some (encodeNode ([Node.Data 5].getD 0 (Node.Hash 0))) :=
  ⟨⟨by simp, by decide⟩,
    (append_writes testEnv initState 0 [Node.Data 5]
        (appendRun testEnv initState 0 [Node.Data 5]) (by simp) (by decide)).1 0
      (by decide)⟩

/-- C6: after every successful non-empty append, the stored
`NumberOfLeaves` counter equals its previous value plus the number of
`Data` (full leaf) elements of the batch; `Hash` (inner node) elements do
not increment it. -/
theorem append_leaf_counter (env : Env) (st : MmrState) (pos : Nat)
    (elems : List Node) (st' : MmrState) (hne : elems ≠ [])
    (h : append env st pos elems = .ok st') :
    st'.numLeaves = st.numLeaves + leafCountOf elems := by
  obtain ⟨-, rfl⟩ := append_ok_inv env st pos elems st' hne h
  exact appendCore_numLeaves env st elems

theorem append_leaf_counter_witness :
    ([Node.Data 5, Node.Hash 9] ≠ [] ∧
      append testEnv ⟨∅, 1, ∅⟩ 1 [Node.Data 5, Node.Hash 9] =
        .ok (appendRun testEnv ⟨∅, 1, ∅⟩ 1 [Node.Data 5, Node.Hash 9])) ∧
    (appendRun testEnv ⟨∅, 1, ∅⟩ 1 [Node.Data 5, Node.Hash 9]).numLeaves =
      (⟨∅, 1, ∅⟩ : MmrState).numLeaves + leafCountOf [Node.Data 5, Node.Hash 9] :=
  ⟨⟨by simp, by decide⟩,
    append_leaf_counter testEnv ⟨∅, 1, ∅⟩ 1 [Node.Data 5, Node.Hash 9]
      (appendRun testEnv ⟨∅, 1, ∅⟩ 1 [Node.Data 5, Node.Hash 9]) (by simp) (by decide)⟩

/-- C7: `append` on the OffchainStorage (read-only) variant always aborts
the calling context with the panic message; for no input does it return a
normal `ok` or `error` value (and, returning no state, it mutates
nothing). -/
theorem offchain_append_panics (st : MmrState) (pos : Nat) (elems : List Node) :
    offchainAppend st pos elems =
      .fatal "MMR must not be altered in the off-chain context." ∧
    (∀ st', offchainAppend st pos elems ≠ .ok st') ∧
    (∀ e, offchainAppend st pos elems ≠ .error e) :=
  ⟨rfl, fun _ h => Outcome.noConfusion h, fun _ h => Outcome.noConfusion h⟩

/-- C8: `append` on the RuntimeStorage variant with an empty batch
succeeds at every position — even a non-contiguous one, since the
emptiness check precedes the contiguity check — and performs no write at
all: the returned state is the previous state. -/
theorem append_empty_noop (env : Env) (st : MmrState) (pos : Nat) :
    append env st pos [] = .ok st ∧ appendRun env st pos [] = st :=
  ⟨rfl, rfl⟩

/-- C9 counterexample: in the claimed regime `L > P` the function does not
"totally return": a stored leaf count beyond `u32::MAX` (here with
`P = 5 < L = u32::MAX + 1`) hits the source's
`u32::try_from(..).expect("leaf-idx < block-num; qed")` panic before any
block hash is produced (`none` models the panic). -/
theorem fork_key_saturates_panics :
    parent_hash_of_ancestor_that_added_node testEnv (u32Max + 1) 1 = none := by
  decide

/-- C9 (amended): the ancestor block number is computed with saturating
arithmetic on the bounded block-number type after `u32` conversions of the
leaf count and leaf index.  For leaf counts and indices within `u32` range
(on a block-number type at least 32 bits wide): the result equals
`P - L + li` over the integers whenever `L ≤ P` and the sum stays below
the type's upper clamp, and when the stored leaf count `L` exceeds the
current block number `P` the subtraction clamps to zero and the function
returns the hash at block number `li` instead of underflowing or
signalling an error; beyond `u32::MAX` the expect conversions panic
instead (`fork_key_saturates_panics`). -/
theorem fork_key_saturates (env : Env) (leavesCount pos : Nat)
    (hLu : leavesCount ≤ u32Max)
    (hli : leaf_index_that_added_node pos ≤ u32Max)
    (hbm : u32Max ≤ env.blockMax) :
    (leavesCount ≤ env.blockNumber →
      env.blockNumber - leavesCount + leaf_index_that_added_node pos ≤ env.blockMax →
      ∃ pbn, parent_block_num env leavesCount pos = some pbn ∧
        (pbn : Int) =
          (env.blockNumber : Int) - leavesCount + leaf_index_that_added_node pos) ∧
    (env.blockNumber < leavesCount →
      parent_block_num env leavesCount pos =
        some (leaf_index_that_added_node pos) ∧
      parent_hash_of_ancestor_that_added_node env leavesCount pos =
        some (env.blockHash (leaf_index_that_added_node pos))) := by
  have h0 := parent_block_num_eq env leavesCount pos hLu hli
  constructor
  · intro hLP hsum
    refine ⟨env.blockNumber - leavesCount + leaf_index_that_added_node pos, ?_,
      by omega⟩
    rw [h0, min_eq_left hsum]
  · intro hPL
    have hmin : min (env.blockNumber - leavesCount + leaf_index_that_added_node pos)
        env.blockMax = leaf_index_that_added_node pos := by omega
    refine ⟨by rw [h0, hmin], ?_⟩
    unfold parent_hash_of_ancestor_that_added_node
    rw [h0, hmin]
    rfl

theorem fork_key_saturates_witness :
    (12 ≤ u32Max ∧ leaf_index_that_added_node 7 ≤ u32Max ∧
      u32Max ≤ testEnv.blockMax ∧ testEnv.blockNumber < 12) ∧
      parent_block_num testEnv 12 7 = some (leaf_index_that_added_node 7) ∧
      parent_hash_of_ancestor_that_added_node testEnv 12 7 =
        some (testEnv.blockHash (leaf_index_that_added_node 7)) :=
  ⟨⟨by decide, by decide, by decide, by decide⟩,
    (fork_key_saturates testEnv 12 7 (by decide) (by decide) (by decide)).2
      (by decide)⟩

/-- C10 counterexample: "for every position it returns Ok" fails — with a
stored leaf count beyond `u32::MAX` the read path panics at the expect
conversion (process abort), returning no Ok value at all. -/
theorem get_elem_panics_beyond_u32 :
    get_elem testEnv ⟨∅, u32Max + 1, ∅⟩ 3 =
      .fatal "leaf-idx < block-num; qed" := by decide

/-- C10 (amended): `get_elem` on the OffchainStorage variant never returns
an error value; whenever the stored leaf count and the position's leaf
index are within `u32` range it returns Ok, yielding `none` both when no
record exists in the external store under the reconstructed fork key and
when a record exists but its bytes fail to decode as a `Node` — decode
failures are silently mapped to an absent result; beyond `u32::MAX` the
fork-key conversion panics (aborts) rather than returning an error
(`get_elem_panics_beyond_u32`). -/
theorem get_elem_never_errors (env : Env) (st : MmrState) (pos : Nat) :
    (∀ e, get_elem env st pos ≠ .error e) ∧
    (st.numLeaves ≤ u32Max → leaf_index_that_added_node pos ≤ u32Max →
      ∃ r, get_elem env st pos = .ok r) ∧
    (∀ k, parent_hash_of_ancestor_that_added_node env st.numLeaves pos = some k →
      (st.external.lookup (offchainKey k pos) = none →
        get_elem env st pos = .ok none) ∧
      (∀ bs, st.external.lookup (offchainKey k pos) = some bs →
        decodeNode bs = none → get_elem env st pos = .ok none)) := by
  refine ⟨?_, ?_, ?_⟩
  · intro e
    cases hph : parent_hash_of_ancestor_that_added_node env st.numLeaves pos with
    | none => simp [get_elem, hph]
    | some k => simp [get_elem, hph]
  · intro h1 h2
    have h0 := parent_block_num_eq env st.numLeaves pos h1 h2
    have hph : parent_hash_of_ancestor_that_added_node env st.numLeaves pos =
        some (env.blockHash (min (env.blockNumber - st.numLeaves +
          leaf_index_that_added_node pos) env.blockMax)) := by
      unfold parent_hash_of_ancestor_that_added_node
      rw [h0]
      rfl
    exact ⟨(st.external.lookup (offchainKey (env.blockHash
      (min (env.blockNumber - st.numLeaves + leaf_index_that_added_node pos)
        env.blockMax)) pos)).bind decodeNode, by simp [get_elem, hph]⟩
  · intro k hk
    constructor
    · intro hnone
      simp [get_elem, hk, hnone]
    · intro bs hsome hdec
      simp [get_elem, hk, hsome, hdec]

theorem get_elem_never_errors_witness :
    (parent_hash_of_ancestor_that_added_node testEnv
        (⟨∅, 0, (∅ : OffchainDb).insert (5, 0) [7]⟩ : MmrState).numLeaves 0 =
        some 5 ∧
      (⟨∅, 0, (∅ : OffchainDb).insert (5, 0) [7]⟩ : MmrState).external.lookup
        (offchainKey 5 0) = some [7] ∧
      decodeNode [7] = none) ∧
      get_elem testEnv ⟨∅, 0, (∅ : OffchainDb).insert (5, 0) [7]⟩ 0 = .ok none :=
  ⟨⟨by decide, by decide, by decide⟩,
    ((get_elem_never_errors testEnv ⟨∅, 0, (∅ : OffchainDb).insert (5, 0) [7]⟩
        0).2.2 5 (by decide)).2 [7] (by decide) (by decide)⟩

end MmrStorage
